import Mathlib

/-!
Verification of the `cache-thread` in-memory LRU cache
(`internal/service/service.cache.go`, `internal/models/model.cache.go`).

The Go service keeps a hash map `data : map[string]*CacheEntry` together with
a doubly linked recency list (sentinel `head`/`tail`); the map and the list
always hold the same entries, and the list orders them from most recently
used (just after `head`) to least recently used (just before `tail`).  The
shallow embedding fuses the two structures into one association list
`entries : List (String × CacheEntry α)` kept in recency order, MRU first:
map lookup is association lookup, `addToHead` is `cons`, `moveToHead` is
erase-then-cons, and `evictLRU` drops the last element.  Time is modelled as
the integer Unix seconds the Go code compares (`time.Now().Unix()`), passed
explicitly to every operation that reads the clock.
-/

namespace CacheThread

/-- `models.CacheEntry` (the `Prev`/`Next` pointers live in the list
structure of the state instead).  `expiration = 0` means "no expiration". -/
structure CacheEntry (α : Type) where
  key : String
  value : α
  expiration : Int
  createdAt : Int
  accessedAt : Int
  deriving Repr, DecidableEq

/-- `service.CacheService`: the fused map + recency list (MRU first), the
configuration fields and the four statistics counters (Go `int64`). -/
structure CacheState (α : Type) where
  entries : List (String × CacheEntry α)
  maxSize : Int
  defaultTTL : Int
  hits : Int
  misses : Int
  evictions : Int
  expiredRemovals : Int
  deriving Repr, DecidableEq

/-- `CacheEntry.IsExpired`, with the clock passed explicitly:
`Expiration == 0` never expires, otherwise expired iff `now > Expiration`. -/
def isExpiredAt (expiration now : Int) : Bool :=
  if expiration = 0 then false else decide (now > expiration)

/-- Association-list lookup, the first binding for `key` (the Go map has at
most one). -/
def lookupEntry (key : String) : List (String × CacheEntry α) → Option (CacheEntry α)
  | [] => none
  | p :: rest => if p.1 = key then some p.2 else lookupEntry key rest

/-- Removing `key`'s binding: `delete(cs.data, key)` together with
`removeFromList` on its node. -/
def eraseKey (key : String) : List (String × CacheEntry α) → List (String × CacheEntry α)
  | [] => []
  | p :: rest => if p.1 = key then rest else p :: eraseKey key rest

/-- `NewCacheService maxSize defaultTTL`: empty index, empty recency list,
all counters zero. -/
def newCacheService (α : Type) (maxSize defaultTTL : Int) : CacheState α :=
  { entries := []
    maxSize := maxSize
    defaultTTL := defaultTTL
    hits := 0
    misses := 0
    evictions := 0
    expiredRemovals := 0 }

/-- The expiration instant `Put` computes: an explicit positive `ttl` wins,
else a positive `defaultTTL`, else `0` (never expires). -/
def putExpiration (defaultTTL : Int) (ttl : Option Int) (now : Int) : Int :=
  match ttl with
  | some t => if 0 < t then now + t else if 0 < defaultTTL then now + defaultTTL else 0
  | none => if 0 < defaultTTL then now + defaultTTL else 0

/-- `evictLRU`: if the list is nonempty (`tail.Prev != head`), remove the
entry just before the tail sentinel — the last of the recency list — and
increment the eviction counter. -/
def evictLRU (cs : CacheState α) : CacheState α :=
  if cs.entries.isEmpty then cs
  else { cs with entries := cs.entries.dropLast, evictions := cs.evictions + 1 }

/-- `Put`: empty key errors without touching the state; an existing key is
updated in place and moved to MRU; a new key first evicts the LRU entry when
`len(data) >= maxSize`, then is inserted at MRU.  The Go method mutates the
receiver and returns `error`; here the pair returns the (possibly
unchanged) state with `some message` for the error case. -/
def put (cs : CacheState α) (key : String) (value : α) (ttl : Option Int) (now : Int) :
    Option String × CacheState α :=
  if key = "" then (some "key cannot be empty", cs)
  else
    let expiration := putExpiration cs.defaultTTL ttl now
    match lookupEntry key cs.entries with
    | some entry =>
        let entry1 := { entry with value := value, expiration := expiration, accessedAt := now }
        (none, { cs with entries := (key, entry1) :: eraseKey key cs.entries })
    | none =>
        let entry1 : CacheEntry α :=
          { key := key, value := value, expiration := expiration
            createdAt := now, accessedAt := now }
        let cs1 := if cs.maxSize ≤ (cs.entries.length : Int) then evictLRU cs else cs
        (none, { cs1 with entries := (key, entry1) :: cs1.entries })

/-- `Get`: empty key is a miss with no state change at all; a missing key
counts a miss; a present expired key is removed, counting one expired
removal and one miss; a live key has its access time refreshed, moves to
MRU and counts a hit, returning the (refreshed) entry. -/
def get (cs : CacheState α) (key : String) (now : Int) :
    Option (CacheEntry α) × CacheState α :=
  if key = "" then (none, cs)
  else
    match lookupEntry key cs.entries with
    | none => (none, { cs with misses := cs.misses + 1 })
    | some entry =>
        if isExpiredAt entry.expiration now then
          (none, { cs with entries := eraseKey key cs.entries
                           expiredRemovals := cs.expiredRemovals + 1
                           misses := cs.misses + 1 })
        else
          let entry1 := { entry with accessedAt := now }
          (some entry1,
           { cs with entries := (key, entry1) :: eraseKey key cs.entries
                     hits := cs.hits + 1 })

/-- `Delete`: empty or absent key returns `(false, false)` with no change;
a present key (expiration never consulted) is removed from map and list and
`(found, deleted) = (true, true)`; no counter is touched. -/
def delete (cs : CacheState α) (key : String) : (Bool × Bool) × CacheState α :=
  if key = "" then ((false, false), cs)
  else
    match lookupEntry key cs.entries with
    | none => ((false, false), cs)
    | some _ => ((true, true), { cs with entries := eraseKey key cs.entries })

/-- `Clear`: returns `len(cs.data)` and empties map and recency list,
leaving every counter and configuration field as it was. -/
def clear (cs : CacheState α) : Nat × CacheState α :=
  (cs.entries.length, { cs with entries := [] })

/-- `cleanupExpired` (the periodic sweep body): removes every expired entry,
incrementing `expiredRemovals` once per removal. -/
def cleanupExpired (cs : CacheState α) (now : Int) : CacheState α :=
  { cs with
      entries := cs.entries.filter (fun p => !isExpiredAt p.2.expiration now)
      expiredRemovals := cs.expiredRemovals +
        ((cs.entries.filter (fun p => isExpiredAt p.2.expiration now)).length : Int) }

/-- `models.GetResponse` as `BulkGet` builds it (timestamps carried by the
entry itself are omitted; `found`/`expired`/payload are kept). -/
structure GetResponse (α : Type) where
  key : String
  value : Option α
  found : Bool
  expired : Bool
  deriving Repr, DecidableEq

/-- `CacheEntry.ToResponse` (its `Expired` field re-evaluates `IsExpired`). -/
def toResponse (e : CacheEntry α) (now : Int) : GetResponse α :=
  { key := e.key, value := some e.value, found := true
    expired := isExpiredAt e.expiration now }

/-- `models.BulkGetResponse`: the `Results` Go map is an association list
updated with last-write-wins, plus the two aggregate counters (Go `int`). -/
structure BulkGetResponse (α : Type) where
  results : List (String × GetResponse α)
  found : Int
  notFound : Int
  deriving Repr, DecidableEq

/-- Go map assignment `response.Results[key] = r`: overwrite the binding if
present, append otherwise. -/
def upsertResult (key : String) (r : GetResponse α) :
    List (String × GetResponse α) → List (String × GetResponse α)
  | [] => [(key, r)]
  | p :: rest => if p.1 = key then (key, r) :: rest else p :: upsertResult key r rest

/-- Lookup in the `Results` map. -/
def lookupResult (key : String) : List (String × GetResponse α) → Option (GetResponse α)
  | [] => none
  | p :: rest => if p.1 = key then some p.2 else lookupResult key rest

/-- One step of the `BulkGet` loop body. -/
def bulkGetStep (now : Int) (acc : BulkGetResponse α × CacheState α) (key : String) :
    BulkGetResponse α × CacheState α :=
  match get acc.2 key now with
  | (some e, s1) =>
      ({ acc.1 with results := upsertResult key (toResponse e now) acc.1.results
                    found := acc.1.found + 1 }, s1)
  | (none, s1) =>
      ({ acc.1 with results := upsertResult key
                      { key := key, value := none, found := false, expired := false }
                      acc.1.results
                    notFound := acc.1.notFound + 1 }, s1)

/-- `BulkGet`: one `Get` per requested key, in caller order. -/
def bulkGet (cs : CacheState α) (keys : List String) (now : Int) :
    BulkGetResponse α × CacheState α :=
  keys.foldl (bulkGetStep now) (⟨[], 0, 0⟩, cs)

/-- The engine operations a caller (or the sweeper) can interleave; each
clock-reading operation carries the Unix-seconds instant it runs at. -/
inductive Op (α : Type) where
  | putOp (key : String) (value : α) (ttl : Option Int) (now : Int)
  | getOp (key : String) (now : Int)
  | deleteOp (key : String)
  | clearOp
  | sweepOp (now : Int)
  deriving Repr

/-- Effect of one operation on the state (results discarded; a failed `Put`
leaves the state as the Go method does). -/
def applyOp (cs : CacheState α) : Op α → CacheState α
  | .putOp key value ttl now => (put cs key value ttl now).2
  | .getOp key now => (get cs key now).2
  | .deleteOp key => (delete cs key).2
  | .clearOp => (clear cs).2
  | .sweepOp now => cleanupExpired cs now

/-- Running a sequence of operations. -/
def runOps (cs : CacheState α) (ops : List (Op α)) : CacheState α :=
  ops.foldl applyOp cs

/-- The instant an operation reads the clock at, if it does. -/
def opTime : Op α → Option Int
  | .putOp _ _ _ now => some now
  | .getOp _ now => some now
  | .deleteOp _ => none
  | .clearOp => none
  | .sweepOp now => some now

/-- `timeChain t ops tEnd`: the clock readings along `ops` are nondecreasing,
start no earlier than `t`, and end no later than `tEnd` — the real-time
monotonicity of `time.Now()` across a run. -/
def timeChain (t : Int) : List (Op α) → Int → Bool
  | [], tEnd => decide (t ≤ tEnd)
  | op :: rest, tEnd =>
    match opTime op with
    | some m => decide (t ≤ m) && timeChain m rest tEnd
    | none => timeChain t rest tEnd

/-- Recency order is consistent with last-touch times: along the list (MRU
first) the `accessedAt` stamps never increase. -/
def RecencySorted (l : List (String × CacheEntry α)) : Prop :=
  l.Pairwise (fun a b => b.2.accessedAt ≤ a.2.accessedAt)

/-- Every stored last-touch stamp is at most `t`. -/
def AccessBounded (t : Int) (l : List (String × CacheEntry α)) : Prop :=
  ∀ p ∈ l, p.2.accessedAt ≤ t

/-! ### Basic facts about the association-list primitives -/

theorem eraseKey_of_lookup_none (key : String) (l : List (String × CacheEntry α))
    (h : lookupEntry key l = none) : eraseKey key l = l := by
  induction l with
  | nil => rfl
  | cons p rest ih =>
    by_cases hp : p.1 = key
    · simp [lookupEntry, hp] at h
    · simp only [lookupEntry, hp, if_false] at h
      simp [eraseKey, hp, ih h]

theorem length_eraseKey_of_lookup_some (key : String) (l : List (String × CacheEntry α))
    (e : CacheEntry α) (h : lookupEntry key l = some e) :
    l.length = (eraseKey key l).length + 1 := by
  induction l with
  | nil => simp [lookupEntry] at h
  | cons p rest ih =>
    by_cases hp : p.1 = key
    · simp [eraseKey, hp]
    · simp only [lookupEntry, hp, if_false] at h
      simp [eraseKey, hp, ih h]

theorem eraseKey_sublist (key : String) (l : List (String × CacheEntry α)) :
    List.Sublist (eraseKey key l) l := by
  induction l with
  | nil => simp [eraseKey]
  | cons p rest ih =>
    by_cases hp : p.1 = key
    · rw [eraseKey, if_pos hp]
      exact List.Sublist.cons p (List.Sublist.refl rest)
    · simpa [eraseKey, hp] using List.Sublist.cons₂ p ih

theorem length_eraseKey_le (key : String) (l : List (String × CacheEntry α)) :
    (eraseKey key l).length ≤ l.length :=
  (eraseKey_sublist key l).length_le

/-! ### C10: Put with an empty key -/

/-- C10.  `Put("", value, ttl)` returns the invalid-key error and leaves the
whole state — index, recency order and every counter — exactly as it was:
the guard fires before any mutation. -/
theorem put_empty_key_rejected (cs : CacheState α) (v : α) (ttl : Option Int) (now : Int) :
    put cs "" v ttl now = (some "key cannot be empty", cs) := by
  simp [put]

/-! ### C6: Clear -/

/-- C6.  `Clear()` returns the number of entries held at the time of the
call and empties the index and recency order, touching nothing else: the
hit, miss, eviction and expired-removal counters (and the configuration)
are unchanged.  On an empty cache it returns `0` and the state stays empty. -/
theorem clear_returns_count_and_preserves_counters (cs : CacheState α) :
    clear cs = (cs.entries.length, { cs with entries := [] }) := rfl

/-! ### C9: Delete ignores expiration -/

/-- C9.  For a key present in the index but already expired (nonzero
expiration strictly in the past), `Delete(key)` still removes the entry and
reports `(found, deleted) = (true, true)`; no counter — expired-removals,
misses, hits or evictions — changes, because `Delete` never consults
expiration. -/
theorem delete_removes_expired_without_counters (cs : CacheState α) (key : String)
    (e : CacheEntry α) (now : Int)
    (hkey : key ≠ "") (hlook : lookupEntry key cs.entries = some e)
    (_hexp0 : e.expiration ≠ 0) (_hexp : e.expiration < now) :
    delete cs key = ((true, true), { cs with entries := eraseKey key cs.entries }) := by
  simp [delete, hkey, hlook]

/-- A concrete state holding one entry that expired at instant 3. -/
def csDel : CacheState Nat :=
  { entries := [("k", { key := "k", value := 7, expiration := 3, createdAt := 1, accessedAt := 1 })]
    maxSize := 10, defaultTTL := 0
    hits := 0, misses := 0, evictions := 0, expiredRemovals := 0 }

/-- Witness for C9 at `now = 5 > 3`. -/
theorem delete_removes_expired_without_counters_witness :
    delete csDel "k" = ((true, true), { csDel with entries := eraseKey "k" csDel.entries }) :=
  delete_removes_expired_without_counters csDel "k"
    { key := "k", value := 7, expiration := 3, createdAt := 1, accessedAt := 1 } 5
    (by decide) (by decide) (by decide) (by decide)

/-! ### C5: Get case analysis -/

/-- C5.  The four outcomes of `Get`: an empty key changes nothing and
misses; an absent key bumps only `misses`; a present expired key is
removed, bumping `expiredRemovals` and `misses`; a present live key is
refreshed and moved to MRU, bumping only `hits`. -/
theorem get_case_analysis (cs : CacheState α) (key : String) (now : Int) :
    (key = "" → get cs key now = (none, cs)) ∧
    (key ≠ "" → lookupEntry key cs.entries = none →
      get cs key now = (none, { cs with misses := cs.misses + 1 })) ∧
    (∀ e : CacheEntry α, key ≠ "" → lookupEntry key cs.entries = some e →
      isExpiredAt e.expiration now = true →
      get cs key now = (none, { cs with entries := eraseKey key cs.entries
                                        expiredRemovals := cs.expiredRemovals + 1
                                        misses := cs.misses + 1 })) ∧
    (∀ e : CacheEntry α, key ≠ "" → lookupEntry key cs.entries = some e →
      isExpiredAt e.expiration now = false →
      get cs key now = (some { e with accessedAt := now },
        { cs with entries := (key, { e with accessedAt := now }) :: eraseKey key cs.entries
                  hits := cs.hits + 1 })) := by
  refine ⟨fun h => by simp [get, h], fun h hl => by simp [get, h, hl],
    fun e h hl hx => by simp [get, h, hl, hx], fun e h hl hx => by simp [get, h, hl, hx]⟩

/-- Witness for C5 (missing-key branch) on an empty cache. -/
theorem get_case_analysis_witness :
    get (newCacheService Nat 10 0) "a" 3 =
      (none, { newCacheService Nat 10 0 with misses := (0 : Int) + 1 }) :=
  (get_case_analysis (newCacheService Nat 10 0) "a" 3).2.1 (by decide) rfl

/-! ### C1: lazy expiration on the read path -/

/-- A concrete state holding one entry whose expiration instant is 5. -/
def csBoundary : CacheState Nat :=
  { entries := [("k", { key := "k", value := 0, expiration := 5, createdAt := 1, accessedAt := 1 })]
    maxSize := 10, defaultTTL := 0
    hits := 0, misses := 0, evictions := 0, expiredRemovals := 0 }

/-- C1 counterexample.  At the exact boundary instant `now = expiration = 5`
the claim demands not-found and removal; the code's `IsExpired` uses strict
`now > Expiration`, so `Get` returns the entry as a hit and keeps it. -/
theorem get_at_expiration_boundary_counterexample :
    (get csBoundary "k" 5).1 =
      some { key := "k", value := 0, expiration := 5, createdAt := 1, accessedAt := 5 } ∧
    lookupEntry "k" (get csBoundary "k" 5).2.entries =
      some { key := "k", value := 0, expiration := 5, createdAt := 1, accessedAt := 5 } ∧
    (get csBoundary "k" 5).2.hits = 1 := by decide

/-- C1 amended.  For every key present with a nonzero expiration instant
STRICTLY less than the current time, `Get` removes the entry and reports
not-found (bumping `expiredRemovals` and `misses`), whether or not the
sweep has run; at the exact boundary `expiration = now` the entry is still
returned. -/
theorem get_strictly_expired_removes (cs : CacheState α) (key : String)
    (e : CacheEntry α) (now : Int)
    (hkey : key ≠ "") (hlook : lookupEntry key cs.entries = some e)
    (hexp0 : e.expiration ≠ 0) (hlt : e.expiration < now) :
    get cs key now = (none, { cs with entries := eraseKey key cs.entries
                                      expiredRemovals := cs.expiredRemovals + 1
                                      misses := cs.misses + 1 }) := by
  simp [get, hkey, hlook, isExpiredAt, hexp0, hlt]

/-- Witness for the amended C1 at `now = 6 > 5`. -/
theorem get_strictly_expired_removes_witness :
    get csBoundary "k" 6 = (none, { csBoundary with entries := eraseKey "k" csBoundary.entries
                                                    expiredRemovals := (0 : Int) + 1
                                                    misses := (0 : Int) + 1 }) :=
  get_strictly_expired_removes csBoundary "k"
    { key := "k", value := 0, expiration := 5, createdAt := 1, accessedAt := 1 } 6
    (by decide) (by decide) (by decide) (by decide)

/-! ### C4: Put then Get -/

/-- C4.  After a successful `Put(k, v, ttl)` at instant `n` (nonempty key),
a following `Get(k)` at any instant `n1` at which the written expiration
has not yet strictly passed (in particular immediately, before the TTL
elapses) succeeds and returns the written value `v`. -/
theorem put_then_get_returns_value (cs : CacheState α) (key : String) (v : α)
    (ttl : Option Int) (n n1 : Int) (hkey : key ≠ "")
    (hbefore : putExpiration cs.defaultTTL ttl n = 0 ∨
      n1 ≤ putExpiration cs.defaultTTL ttl n) :
    ∃ e : CacheEntry α, (get (put cs key v ttl n).2 key n1).1 = some e ∧ e.value = v := by
  have hnx : isExpiredAt (putExpiration cs.defaultTTL ttl n) n1 = false := by
    rcases hbefore with h | h
    · simp [isExpiredAt, h]
    · simp only [isExpiredAt]
      split
      · rfl
      · simpa using not_lt.mpr h
  rcases hput : lookupEntry key cs.entries with _ | e0
  · refine ⟨⟨key, v, putExpiration cs.defaultTTL ttl n, n, n1⟩, ?_, rfl⟩
    simp [put, get, hkey, hput, lookupEntry, hnx]
  · refine ⟨⟨e0.key, v, putExpiration cs.defaultTTL ttl n, e0.createdAt, n1⟩, ?_, rfl⟩
    simp [put, get, hkey, hput, lookupEntry, hnx]

/-- Witness for C4: `Put` then immediate `Get` on an empty cache with TTL 10. -/
theorem put_then_get_returns_value_witness :
    ∃ e : CacheEntry Nat,
      (get (put (newCacheService Nat 10 0) "a" 42 (some 10) 1).2 "a" 1).1 = some e ∧
      e.value = 42 :=
  put_then_get_returns_value (newCacheService Nat 10 0) "a" 42 (some 10) 1 1
    (by decide) (by decide)

/-! ### C2: capacity invariant -/

theorem applyOp_size (cs : CacheState α) (op : Op α)
    (h0 : 0 < cs.maxSize) (h : (cs.entries.length : Int) ≤ cs.maxSize) :
    ((applyOp cs op).entries.length : Int) ≤ cs.maxSize ∧ (applyOp cs op).maxSize = cs.maxSize := by
  cases op with
  | putOp key v ttl now =>
    by_cases hkey : key = ""
    · simpa [applyOp, put, hkey] using h
    · rcases hl : lookupEntry key cs.entries with _ | e
      · by_cases hcap : cs.maxSize ≤ (cs.entries.length : Int)
        · have hlen0 : cs.entries.length ≠ 0 := by
            intro hz
            rw [hz] at hcap
            simp only [Nat.cast_zero] at hcap
            omega
          have hisE : cs.entries.isEmpty = false := by
            simpa [List.isEmpty_iff, List.length_eq_zero] using hlen0
          have hdl : cs.entries.dropLast.length = cs.entries.length - 1 :=
            List.length_dropLast _
          refine ⟨?_, ?_⟩
          · simp only [applyOp, put, hkey, if_false, hl]
            rw [if_pos hcap]
            simp only [evictLRU, hisE, Bool.false_eq_true, if_false, List.length_cons, hdl]
            push_cast [Nat.sub_add_cancel (Nat.one_le_iff_ne_zero.mpr hlen0)]
            exact h
          · simp only [applyOp, put, hkey, if_false, hl]
            rw [if_pos hcap]
            simp [evictLRU, hisE]
        · refine ⟨?_, ?_⟩
          · simp only [applyOp, put, hkey, if_false, hl]
            rw [if_neg hcap]
            simp only [List.length_cons]
            push_cast
            omega
          · simp only [applyOp, put, hkey, if_false, hl]
            rw [if_neg hcap]
      · have hlen := length_eraseKey_of_lookup_some key cs.entries e hl
        refine ⟨?_, by simp [applyOp, put, hkey, hl]⟩
        simp only [applyOp, put, hkey, if_false, hl, List.length_cons]
        push_cast
        omega
  | getOp key now =>
    by_cases hkey : key = ""
    · simpa [applyOp, get, hkey] using h
    · rcases hl : lookupEntry key cs.entries with _ | e
      · simpa [applyOp, get, hkey, hl] using h
      · rcases hx : isExpiredAt e.expiration now with _ | _
        · have hlen := length_eraseKey_of_lookup_some key cs.entries e hl
          refine ⟨?_, by simp [applyOp, get, hkey, hl, hx]⟩
          simp only [applyOp, get, hkey, if_false, hl, hx, Bool.false_eq_true, List.length_cons]
          push_cast
          omega
        · have hlen := length_eraseKey_le key cs.entries
          refine ⟨?_, by simp [applyOp, get, hkey, hl, hx]⟩
          simp only [applyOp, get, hkey, if_false, hl, hx, if_true]
          omega
  | deleteOp key =>
    by_cases hkey : key = ""
    · simpa [applyOp, delete, hkey] using h
    · rcases hl : lookupEntry key cs.entries with _ | e
      · simpa [applyOp, delete, hkey, hl] using h
      · have hlen := length_eraseKey_le key cs.entries
        refine ⟨?_, by simp [applyOp, delete, hkey, hl]⟩
        simp only [applyOp, delete, hkey, if_false, hl]
        omega
  | clearOp =>
    refine ⟨?_, rfl⟩
    simp only [applyOp, clear, List.length_nil, Nat.cast_zero]
    omega
  | sweepOp now =>
    have hlen := List.length_filter_le (fun p => !isExpiredAt p.2.expiration now) cs.entries
    refine ⟨?_, rfl⟩
    simp only [applyOp, cleanupExpired]
    omega

theorem runOps_size (ops : List (Op α)) (cs : CacheState α)
    (h0 : 0 < cs.maxSize) (h : (cs.entries.length : Int) ≤ cs.maxSize) :
    ((runOps cs ops).entries.length : Int) ≤ cs.maxSize ∧ (runOps cs ops).maxSize = cs.maxSize := by
  induction ops generalizing cs with
  | nil => exact ⟨h, rfl⟩
  | cons op rest ih =>
    have step := applyOp_size cs op h0 h
    have h0a : 0 < (applyOp cs op).maxSize := by rw [step.2]; exact h0
    have ha : ((applyOp cs op).entries.length : Int) ≤ (applyOp cs op).maxSize := by
      rw [step.2]; exact step.1
    have hrec := ih (applyOp cs op) h0a ha
    have hrun : runOps cs (op :: rest) = runOps (applyOp cs op) rest := rfl
    refine ⟨?_, ?_⟩
    · rw [hrun, ← step.2]; exact hrec.1
    · rw [hrun]; exact hrec.2.trans step.2

/-- C2.  From a cache constructed with positive capacity, after any
sequence of Put/Get/Delete/Clear/sweep operations the number of held
entries never exceeds the capacity; and whenever `Put` inserts a new key
while the count is at or above capacity, it synchronously evicts exactly
one entry — the tail of the recency list (the LRU) — before inserting,
incrementing the eviction counter by one. -/
theorem capacity_never_exceeded (maxSize defaultTTL : Int) (hpos : 0 < maxSize)
    (ops : List (Op α)) (cs : CacheState α)
    (hcs : cs = runOps (newCacheService α maxSize defaultTTL) ops)
    (key : String) (v : α) (ttl : Option Int) (now : Int) (hkey : key ≠ "") :
    ((cs.entries.length : Int) ≤ maxSize) ∧
    (lookupEntry key cs.entries = none → maxSize ≤ (cs.entries.length : Int) →
      (put cs key v ttl now).2.entries =
        (key, { key := key, value := v, expiration := putExpiration cs.defaultTTL ttl now
                createdAt := now, accessedAt := now }) :: cs.entries.dropLast ∧
      (put cs key v ttl now).2.evictions = cs.evictions + 1) := by
  have base := runOps_size ops (newCacheService α maxSize defaultTTL)
    (by simpa [newCacheService] using hpos) (by simp only [newCacheService]; simp; omega)
  rw [← hcs] at base
  have hmaxeq : cs.maxSize = maxSize := base.2
  refine ⟨base.1, fun hlook hcap => ?_⟩
  have hcond : cs.maxSize ≤ (cs.entries.length : Int) := by rw [hmaxeq]; exact hcap
  have hlen0 : (0 : Int) < (cs.entries.length : Int) := lt_of_lt_of_le hpos hcap
  have hne : cs.entries.length ≠ 0 := by
    intro hz; rw [hz] at hlen0; simp at hlen0
  have hisE : cs.entries.isEmpty = false := by
    simpa [List.isEmpty_iff, List.length_eq_zero] using hne
  constructor
  · simp only [put, hkey, if_false, hlook]
    rw [if_pos hcond]
    simp [evictLRU, hisE]
  · simp only [put, hkey, if_false, hlook]
    rw [if_pos hcond]
    simp [evictLRU, hisE]

/-- Witness for C2: capacity 1, one entry stored, inserting a second key. -/
theorem capacity_never_exceeded_witness :
    (((runOps (newCacheService Nat 1 0) [Op.putOp "a" 0 none 1]).entries.length : Int) ≤ 1) ∧
    (lookupEntry "b" (runOps (newCacheService Nat 1 0) [Op.putOp "a" 0 none 1]).entries = none →
      (1 : Int) ≤ ((runOps (newCacheService Nat 1 0) [Op.putOp "a" 0 none 1]).entries.length : Int) →
      (put (runOps (newCacheService Nat 1 0) [Op.putOp "a" 0 none 1]) "b" 5 none 2).2.entries =
        ("b", { key := "b", value := 5
                expiration := putExpiration
                  (runOps (newCacheService Nat 1 0) [Op.putOp "a" 0 none 1]).defaultTTL none 2
                createdAt := 2, accessedAt := 2 }) ::
          (runOps (newCacheService Nat 1 0) [Op.putOp "a" 0 none 1]).entries.dropLast ∧
      (put (runOps (newCacheService Nat 1 0) [Op.putOp "a" 0 none 1]) "b" 5 none 2).2.evictions =
        (runOps (newCacheService Nat 1 0) [Op.putOp "a" 0 none 1]).evictions + 1) :=
  capacity_never_exceeded 1 0 (by decide) [Op.putOp "a" 0 none 1] _ rfl "b" 5 none 2 (by decide)

/-! ### C3: the evicted entry is the least recently touched -/

theorem accessBounded_mono (t m : Int) (htm : t ≤ m) (l : List (String × CacheEntry α))
    (hb : AccessBounded t l) : AccessBounded m l :=
  fun p hp => le_trans (hb p hp) htm

theorem recencySorted_sublist {l sl : List (String × CacheEntry α)}
    (hsub : List.Sublist sl l) (hs : RecencySorted l) : RecencySorted sl :=
  List.Pairwise.sublist hsub hs

theorem accessBounded_sublist {t : Int} {l sl : List (String × CacheEntry α)}
    (hsub : List.Sublist sl l) (hb : AccessBounded t l) : AccessBounded t sl :=
  fun p hp => hb p (hsub.subset hp)

theorem recency_cons (t m : Int) (htm : t ≤ m) (l sl : List (String × CacheEntry α))
    (hsub : List.Sublist sl l) (hs : RecencySorted l) (hb : AccessBounded t l)
    (key : String) (e : CacheEntry α) (he : e.accessedAt = m) :
    RecencySorted ((key, e) :: sl) ∧ AccessBounded m ((key, e) :: sl) := by
  constructor
  · exact List.Pairwise.cons
      (fun q hq => by rw [he]; exact le_trans (hb q (hsub.subset hq)) htm)
      (recencySorted_sublist hsub hs)
  · intro p hp
    rcases List.mem_cons.mp hp with hp | hp
    · rw [hp, he]
    · exact le_trans (hb p (hsub.subset hp)) htm

theorem dropLast_sublist (l : List (String × CacheEntry α)) :
    List.Sublist l.dropLast l := by
  induction l with
  | nil => exact List.Sublist.refl _
  | cons a rest ih =>
    cases rest with
    | nil => simp
    | cons b rest2 =>
      rw [List.dropLast_cons₂]
      exact List.Sublist.cons₂ a ih

theorem evictLRU_entries_sublist (cs : CacheState α) :
    List.Sublist (evictLRU cs).entries cs.entries := by
  unfold evictLRU
  split
  · exact List.Sublist.refl _
  · exact dropLast_sublist cs.entries

theorem put_recency (cs : CacheState α) (key : String) (v : α) (ttl : Option Int)
    (t m : Int) (htm : t ≤ m)
    (hs : RecencySorted cs.entries) (hb : AccessBounded t cs.entries) :
    RecencySorted (put cs key v ttl m).2.entries ∧
    AccessBounded m (put cs key v ttl m).2.entries := by
  by_cases hkey : key = ""
  · simp only [put, hkey, if_true]
    exact ⟨hs, accessBounded_mono t m htm _ hb⟩
  · rcases hl : lookupEntry key cs.entries with _ | e
    · simp only [put, hkey, if_false, hl]
      have hsub : List.Sublist
          (if cs.maxSize ≤ (cs.entries.length : Int) then evictLRU cs else cs).entries
          cs.entries := by
        split
        · exact evictLRU_entries_sublist cs
        · exact List.Sublist.refl _
      exact recency_cons t m htm cs.entries _ hsub hs hb key _ rfl
    · simp only [put, hkey, if_false, hl]
      exact recency_cons t m htm cs.entries _ (eraseKey_sublist key cs.entries) hs hb key _ rfl

theorem get_recency (cs : CacheState α) (key : String) (t m : Int) (htm : t ≤ m)
    (hs : RecencySorted cs.entries) (hb : AccessBounded t cs.entries) :
    RecencySorted (get cs key m).2.entries ∧ AccessBounded m (get cs key m).2.entries := by
  by_cases hkey : key = ""
  · simp only [get, hkey, if_true]
    exact ⟨hs, accessBounded_mono t m htm _ hb⟩
  · rcases hl : lookupEntry key cs.entries with _ | e
    · simp only [get, hkey, if_false, hl]
      exact ⟨hs, accessBounded_mono t m htm _ hb⟩
    · rcases hx : isExpiredAt e.expiration m with _ | _
      · simp only [get, hkey, if_false, hl, hx, Bool.false_eq_true, if_false]
        exact recency_cons t m htm cs.entries _ (eraseKey_sublist key cs.entries) hs hb key _ rfl
      · simp only [get, hkey, if_false, hl, hx, if_true]
        exact ⟨recencySorted_sublist (eraseKey_sublist key cs.entries) hs,
          accessBounded_mono t m htm _ (accessBounded_sublist (eraseKey_sublist key cs.entries) hb)⟩

theorem delete_recency (cs : CacheState α) (key : String) (t : Int)
    (hs : RecencySorted cs.entries) (hb : AccessBounded t cs.entries) :
    RecencySorted (delete cs key).2.entries ∧ AccessBounded t (delete cs key).2.entries := by
  by_cases hkey : key = ""
  · simpa only [delete, hkey, if_true] using ⟨hs, hb⟩
  · rcases hl : lookupEntry key cs.entries with _ | e
    · simpa only [delete, hkey, if_false, hl] using ⟨hs, hb⟩
    · simp only [delete, hkey, if_false, hl]
      exact ⟨recencySorted_sublist (eraseKey_sublist key cs.entries) hs,
        accessBounded_sublist (eraseKey_sublist key cs.entries) hb⟩

theorem sweep_recency (cs : CacheState α) (t m : Int) (htm : t ≤ m)
    (hs : RecencySorted cs.entries) (hb : AccessBounded t cs.entries) :
    RecencySorted (cleanupExpired cs m).entries ∧
    AccessBounded m (cleanupExpired cs m).entries := by
  simp only [cleanupExpired]
  have hsub := List.filter_sublist (p := fun p => !isExpiredAt p.2.expiration m) cs.entries
  exact ⟨recencySorted_sublist hsub hs,
    accessBounded_mono t m htm _ (accessBounded_sublist hsub hb)⟩

theorem runOps_recency (ops : List (Op α)) (t tEnd : Int) (cs : CacheState α)
    (hchain : timeChain t ops tEnd = true)
    (hs : RecencySorted cs.entries) (hb : AccessBounded t cs.entries) :
    RecencySorted (runOps cs ops).entries ∧ AccessBounded tEnd (runOps cs ops).entries := by
  induction ops generalizing t cs with
  | nil =>
    simp only [timeChain, decide_eq_true_eq] at hchain
    exact ⟨hs, accessBounded_mono t tEnd hchain _ hb⟩
  | cons op rest ih =>
    cases op with
    | putOp key v ttl m =>
      simp only [timeChain, opTime, Bool.and_eq_true, decide_eq_true_eq] at hchain
      have hstep := put_recency cs key v ttl t m hchain.1 hs hb
      exact ih m (put cs key v ttl m).2 hchain.2 hstep.1 hstep.2
    | getOp key m =>
      simp only [timeChain, opTime, Bool.and_eq_true, decide_eq_true_eq] at hchain
      have hstep := get_recency cs key t m hchain.1 hs hb
      exact ih m (get cs key m).2 hchain.2 hstep.1 hstep.2
    | deleteOp key =>
      simp only [timeChain, opTime] at hchain
      have hstep := delete_recency cs key t hs hb
      exact ih t (delete cs key).2 hchain hstep.1 hstep.2
    | clearOp =>
      simp only [timeChain, opTime] at hchain
      refine ih t (clear cs).2 hchain ?_ ?_
      · exact List.Pairwise.nil
      · intro p hp
        simp [clear] at hp
    | sweepOp m =>
      simp only [timeChain, opTime, Bool.and_eq_true, decide_eq_true_eq] at hchain
      have hstep := sweep_recency cs t m hchain.1 hs hb
      exact ih m (cleanupExpired cs m) hchain.2 hstep.1 hstep.2

theorem recencySorted_getLast_min (l : List (String × CacheEntry α))
    (hs : RecencySorted l) (hne : l ≠ []) :
    ∀ p ∈ l, (l.getLast hne).2.accessedAt ≤ p.2.accessedAt := by
  induction l with
  | nil => exact absurd rfl hne
  | cons a rest ih =>
    intro p hp
    cases rest with
    | nil =>
      have hpa : p = a := by simpa using hp
      rw [hpa]
      simp
    | cons b rest2 =>
      have hne2 : b :: rest2 ≠ [] := by simp
      rw [List.getLast_cons hne2]
      rcases List.mem_cons.mp hp with hpa | hp2
      · have hmem : (b :: rest2).getLast hne2 ∈ b :: rest2 := List.getLast_mem hne2
        have hhead := (List.pairwise_cons.mp hs).1 _ hmem
        rw [hpa]
        exact hhead
      · exact ih (List.pairwise_cons.mp hs).2 hne2 p hp2

/-- C3.  In any cache reached from construction by operations run at
nondecreasing clock instants, when `Put` inserts a new key at (or above)
capacity, the evicted entry is exactly the tail of the recency list, whose
last-touch stamp (set only by successful reads and writes) is minimal among
all live entries — never an entry touched more recently than some other —
and the eviction counter is incremented by exactly one. -/
theorem lru_eviction_victim (maxSize defaultTTL t0 tEnd : Int) (ops : List (Op α))
    (cs : CacheState α)
    (hcs : cs = runOps (newCacheService α maxSize defaultTTL) ops)
    (hchain : timeChain t0 ops tEnd = true)
    (key : String) (v : α) (ttl : Option Int) (now : Int)
    (hkey : key ≠ "") (hlook : lookupEntry key cs.entries = none)
    (hpos : 0 < maxSize) (hcap : maxSize ≤ (cs.entries.length : Int)) :
    ∃ hne : cs.entries ≠ [],
      (∀ p ∈ cs.entries, (cs.entries.getLast hne).2.accessedAt ≤ p.2.accessedAt) ∧
      cs.entries = cs.entries.dropLast ++ [cs.entries.getLast hne] ∧
      (put cs key v ttl now).2.entries =
        (key, { key := key, value := v, expiration := putExpiration cs.defaultTTL ttl now
                createdAt := now, accessedAt := now }) :: cs.entries.dropLast ∧
      (put cs key v ttl now).2.evictions = cs.evictions + 1 := by
  have base := runOps_size ops (newCacheService α maxSize defaultTTL)
    (by simpa [newCacheService] using hpos) (by simp only [newCacheService]; simp; omega)
  rw [← hcs] at base
  have hmaxeq : cs.maxSize = maxSize := base.2
  have hcond : cs.maxSize ≤ (cs.entries.length : Int) := by rw [hmaxeq]; exact hcap
  have hlen0 : (0 : Int) < (cs.entries.length : Int) := lt_of_lt_of_le hpos hcap
  have hlen0n : cs.entries.length ≠ 0 := by
    intro hz; rw [hz] at hlen0; simp at hlen0
  have hne : cs.entries ≠ [] := by
    intro hnil; rw [hnil] at hlen0n; simp at hlen0n
  have hisE : cs.entries.isEmpty = false := by
    simpa [List.isEmpty_iff, List.length_eq_zero] using hlen0n
  have hrec := runOps_recency ops t0 tEnd (newCacheService α maxSize defaultTTL) hchain
    List.Pairwise.nil (fun p hp => absurd hp (by simp [newCacheService]))
  rw [← hcs] at hrec
  refine ⟨hne, recencySorted_getLast_min cs.entries hrec.1 hne,
    (List.dropLast_append_getLast hne).symm, ?_, ?_⟩
  · simp only [put, hkey, if_false, hlook]
    rw [if_pos hcond]
    simp [evictLRU, hisE]
  · simp only [put, hkey, if_false, hlook]
    rw [if_pos hcond]
    simp [evictLRU, hisE]

/-- Witness for C3: capacity 1, one stored entry, inserting a second key. -/
theorem lru_eviction_victim_witness :
    ∃ hne : (runOps (newCacheService Nat 1 0) [Op.putOp "a" 0 none 1]).entries ≠ [],
      (∀ p ∈ (runOps (newCacheService Nat 1 0) [Op.putOp "a" 0 none 1]).entries,
        ((runOps (newCacheService Nat 1 0) [Op.putOp "a" 0 none 1]).entries.getLast
          hne).2.accessedAt ≤ p.2.accessedAt) ∧
      (runOps (newCacheService Nat 1 0) [Op.putOp "a" 0 none 1]).entries =
        (runOps (newCacheService Nat 1 0) [Op.putOp "a" 0 none 1]).entries.dropLast ++
          [(runOps (newCacheService Nat 1 0) [Op.putOp "a" 0 none 1]).entries.getLast hne] ∧
      (put (runOps (newCacheService Nat 1 0) [Op.putOp "a" 0 none 1]) "b" 5 none 3).2.entries =
        ("b", { key := "b", value := 5
                expiration := putExpiration
                  (runOps (newCacheService Nat 1 0) [Op.putOp "a" 0 none 1]).defaultTTL none 3
                createdAt := 3, accessedAt := 3 }) ::
          (runOps (newCacheService Nat 1 0) [Op.putOp "a" 0 none 1]).entries.dropLast ∧
      (put (runOps (newCacheService Nat 1 0) [Op.putOp "a" 0 none 1]) "b" 5 none 3).2.evictions =
        (runOps (newCacheService Nat 1 0) [Op.putOp "a" 0 none 1]).evictions + 1 :=
  lru_eviction_victim 1 0 0 2 [Op.putOp "a" 0 none 1] _ rfl (by decide)
    "b" 5 none 3 (by decide) (by decide) (by decide) (by decide)

/-! ### C7: BulkGet -/

theorem bulkGetStep_counts (now : Int) (acc : BulkGetResponse α × CacheState α) (k : String) :
    (bulkGetStep now acc k).1.found + (bulkGetStep now acc k).1.notFound =
      acc.1.found + acc.1.notFound + 1 ∧
    (bulkGetStep now acc k).2 = (get acc.2 k now).2 := by
  rcases hget : get acc.2 k now with ⟨o, s1⟩
  cases o with
  | none =>
    constructor
    · simp only [bulkGetStep, hget]
      ring
    · simp only [bulkGetStep, hget]
  | some e =>
    constructor
    · simp only [bulkGetStep, hget]
      ring
    · simp only [bulkGetStep, hget]

theorem bulkGetStep_results (now : Int) (acc : BulkGetResponse α × CacheState α) (k : String) :
    ∃ r : GetResponse α,
      (bulkGetStep now acc k).1.results = upsertResult k r acc.1.results := by
  rcases hget : get acc.2 k now with ⟨o, s1⟩
  cases o with
  | none =>
    exact ⟨{ key := k, value := none, found := false, expired := false },
      by simp only [bulkGetStep, hget]⟩
  | some e => exact ⟨toResponse e now, by simp only [bulkGetStep, hget]⟩

theorem bulkGet_foldl_counts (now : Int) (keys : List String)
    (acc : BulkGetResponse α × CacheState α) :
    (keys.foldl (bulkGetStep now) acc).1.found +
      (keys.foldl (bulkGetStep now) acc).1.notFound =
      acc.1.found + acc.1.notFound + (keys.length : Int) := by
  induction keys generalizing acc with
  | nil => simp
  | cons k rest ih =>
    rw [List.foldl_cons, ih]
    rw [(bulkGetStep_counts now acc k).1]
    simp only [List.length_cons]
    push_cast
    ring

theorem bulkGet_foldl_state (now : Int) (keys : List String)
    (acc : BulkGetResponse α × CacheState α) :
    (keys.foldl (bulkGetStep now) acc).2 =
      keys.foldl (fun s k => (get s k now).2) acc.2 := by
  induction keys generalizing acc with
  | nil => rfl
  | cons k rest ih =>
    rw [List.foldl_cons, List.foldl_cons, ih, (bulkGetStep_counts now acc k).2]

theorem lookupResult_upsert_self (k : String) (r : GetResponse α)
    (l : List (String × GetResponse α)) :
    lookupResult k (upsertResult k r l) = some r := by
  induction l with
  | nil => simp [upsertResult, lookupResult]
  | cons p rest ih =>
    by_cases hp : p.1 = k
    · simp [upsertResult, hp, lookupResult]
    · simp [upsertResult, hp, lookupResult, ih]

theorem lookupResult_upsert_ne (k k' : String) (r : GetResponse α)
    (l : List (String × GetResponse α)) (hk : k ≠ k') :
    lookupResult k (upsertResult k' r l) = lookupResult k l := by
  induction l with
  | nil => simp [upsertResult, lookupResult, Ne.symm hk]
  | cons p rest ih =>
    by_cases hp : p.1 = k'
    · by_cases hpk : p.1 = k
      · exact absurd (hpk.symm.trans hp) hk
      · simp [upsertResult, hp, lookupResult, hpk, Ne.symm hk]
    · by_cases hpk : p.1 = k
      · simp [upsertResult, hp, lookupResult, hpk, hk]
      · simp [upsertResult, hp, lookupResult, hpk, ih]

theorem isSome_lookupResult_upsert (k k' : String) (r : GetResponse α)
    (l : List (String × GetResponse α))
    (h : k = k' ∨ (lookupResult k l).isSome = true) :
    (lookupResult k (upsertResult k' r l)).isSome = true := by
  by_cases hk : k = k'
  · rw [hk, lookupResult_upsert_self]
    rfl
  · rcases h with h | h
    · exact absurd h hk
    · rw [lookupResult_upsert_ne k k' r l hk]
      exact h

theorem mem_keys_lookupResult (now : Int) (keys : List String)
    (acc : BulkGetResponse α × CacheState α) (k : String)
    (h : k ∈ keys ∨ (lookupResult k acc.1.results).isSome = true) :
    (lookupResult k ((keys.foldl (bulkGetStep now) acc).1.results)).isSome = true := by
  induction keys generalizing acc with
  | nil =>
    rcases h with h | h
    · simp at h
    · simpa using h
  | cons k' rest ih =>
    rw [List.foldl_cons]
    apply ih
    obtain ⟨r, hr⟩ := bulkGetStep_results now acc k'
    rcases h with h | h
    · rcases List.mem_cons.mp h with hk | hk
      · right
        rw [hr]
        exact isSome_lookupResult_upsert k k' r acc.1.results (Or.inl hk)
      · left
        exact hk
    · right
      rw [hr]
      exact isSome_lookupResult_upsert k k' r acc.1.results (Or.inr h)

/-- C7.  `BulkGet` applies `Get` once per requested key, in caller order,
so duplicate occurrences each pass through `Get` (updating recency and the
hit/miss counters) independently; every requested key has an outcome in the
results map, and the aggregate `found + notFound` equals the number of
requested keys, duplicates counted. -/
theorem bulkGet_per_key (cs : CacheState α) (keys : List String) (now : Int) :
    (bulkGet cs keys now).1.found + (bulkGet cs keys now).1.notFound = (keys.length : Int) ∧
    (∀ k ∈ keys, (lookupResult k (bulkGet cs keys now).1.results).isSome = true) ∧
    (bulkGet cs keys now).2 = keys.foldl (fun s k => (get s k now).2) cs := by
  refine ⟨?_, ?_, ?_⟩
  · have h := bulkGet_foldl_counts now keys ((⟨[], 0, 0⟩ : BulkGetResponse α), cs)
    simpa [bulkGet] using h
  · intro k hk
    exact mem_keys_lookupResult now keys ((⟨[], 0, 0⟩ : BulkGetResponse α), cs) k (Or.inl hk)
  · exact bulkGet_foldl_state now keys ((⟨[], 0, 0⟩ : BulkGetResponse α), cs)

/-- Witness for C7: a duplicated present key and a missing key. -/
theorem bulkGet_per_key_witness :
    (bulkGet csDel ["k", "k", "m"] 1).1.found + (bulkGet csDel ["k", "k", "m"] 1).1.notFound =
      ((["k", "k", "m"] : List String).length : Int) ∧
    (∀ k ∈ (["k", "k", "m"] : List String),
      (lookupResult k (bulkGet csDel ["k", "k", "m"] 1).1.results).isSome = true) ∧
    (bulkGet csDel ["k", "k", "m"] 1).2 =
      (["k", "k", "m"] : List String).foldl (fun s k => (get s k 1).2) csDel :=
  bulkGet_per_key csDel ["k", "k", "m"] 1

end CacheThread
